import Mathlib

/-!
Verification development for the Grow-Branches repository.

The repository grows branching, tree-like glyph structures from words
(`WordTree`, in `src/src/WordTree.js` and its TypeScript twin in
`src/unnamed/part_001`), composes word trees into balanced trees
(`Tree`, `src/src/Tree.js`), and extracts raster edge profiles for
kerning (`KerningInfo`, `src/unnamed/part_001`).

The geometry engine (paper.js) is external to the repository.  We embed
it as an `Oracle`: a bundle of functions giving, for each glyph
instantiation, its placed geometry (trunk polyline, bottom edge,
position) and, for each pair of branch outlines, their list of
intersections.  Each glyph instance receives a fresh creation index
`id`; branch outlines are identified by `(glyph id, branch index)`
pairs, and a placed outline's geometry never changes afterwards (the
only later mutation in the source, `_adjustTrunk`, touches only the
root glyph's trunk path and pivot, which are modelled as separate
fields).  Coordinates are integers with the y axis growing downward,
as on the canvas.
-/

/-- A point (paper.js `Point`); `y` grows downward. -/
structure Pt where
  x : Int
  y : Int
deriving DecidableEq, Repr

/-- One intersection returned by `getIntersections`: its location and
whether it is a true crossing (`CurveLocation.isCrossing()`). -/
structure Isect where
  point : Pt
  isCrossing : Bool
deriving DecidableEq, Repr

/-- A glyph instance as used by `WordTree` (`Glyph` lives outside `src/`;
only the fields the `WordTree` code reads are modelled).
`branches` holds the identities of the branch outlines
(`glyph.branches`), `trunk` the segment points of the trunk path
(head = `trunk.firstSegment`), `bottomY` the value of
`item.bounds.bottomLeft.y`, and `pos` the pivot/`position` point. -/
structure Glyph where
  id : Nat
  char : Nat
  branches : List (Nat × Nat)
  trunk : List Pt
  bottomY : Int
  pos : Pt
deriving DecidableEq, Repr

/-- The external world of `WordTree.grow`: the font
(`font.glyphDefinitions`) together with the geometry engine.
`hasDef c` models `font.glyphDefinitions.get(c)` being present;
`trunk0/bottom0/pos0 k` give the geometry of the `k`-th instantiated
glyph right after `definition.instance()`; `alignTrunk/alignBottom/alignPos
k b` give its geometry after `glyph.alignAtBranch(b)`; `inters bA bB`
models `branchA.getIntersections(branchB)` before filtering. -/
structure Oracle where
  hasDef : Nat → Bool
  nBranches : Nat → Nat
  trunk0 : Nat → List Pt
  bottom0 : Nat → Int
  pos0 : Nat → Pt
  alignTrunk : Nat → Nat × Nat → List Pt
  alignBottom : Nat → Nat × Nat → Int
  alignPos : Nat → Nat × Nat → Pt
  inters : Nat × Nat → Nat × Nat → List Isect

/-- Errors thrown by growth: the glyph-not-found `Error` of
`_createGlyph`, and the `TypeError` raised by `char.charCodeAt(0)` when
`grow` is called on the empty string (`string[0]` is `undefined`). -/
inductive GrowErr where
  | glyphNotFound (char : Nat)
  | typeErr
deriving DecidableEq, Repr

/-- Mutable state of a `WordTree` during `grow`: the glyph list, the
`lowestGlyph` reference, a fresh-id counter for glyph instantiation,
and an instrumentation counter of candidates discarded by the crossing
test (`glyph.remove()` branch of `_growRecursive`). -/
structure St where
  glyphs : List Glyph
  lowestGlyph : Option Glyph
  nextId : Nat
  rejects : Nat
deriving DecidableEq, Repr

/-- The state of a freshly constructed `WordTree`:
`this.glyphs = []`, `this.lowestGlyph = null`. -/
def St.init : St := ⟨[], none, 0, 0⟩

/-- The glyph produced by `definition.instance()` for char `c`, as the
`k`-th instantiation: its branch outlines get the fresh identities
`(k, 0) … (k, nBranches c - 1)`. -/
def mkGlyph (o : Oracle) (k c : Nat) : Glyph :=
  { id := k, char := c
    branches := (List.range (o.nBranches c)).map fun j => (k, j)
    trunk := o.trunk0 k, bottomY := o.bottom0 k, pos := o.pos0 k }

/-- `WordTree._createGlyph(char)`.  `char = none` models the
`undefined` produced by `string[0]` on an empty string, on which
`charCodeAt` throws a `TypeError` before any lookup happens. -/
def createGlyph (o : Oracle) (k : Nat) : Option Nat → Except GrowErr Glyph
  | none => .error .typeErr
  | some c =>
    if o.hasDef c then .ok (mkGlyph o k c)
    else .error (.glyphNotFound c)

/-- `glyph.alignAtBranch(branch)`: repositions the glyph at the branch;
the resulting geometry is supplied by the engine. -/
def alignAtBranch (o : Oracle) (g : Glyph) (b : Nat × Nat) : Glyph :=
  { g with trunk := o.alignTrunk g.id b
           bottomY := o.alignBottom g.id b
           pos := o.alignPos g.id b }

/-- `glyph.isLowerThan(other)`.  Modelled from the spec: `Glyph` itself
is not under `src/`; the spec reads "update `lowestGlyph` if the
candidate's lowest vertical extent exceeds (is lower than) the current
one", and with y growing downward a glyph is lower when its bottom
edge has the larger y. -/
def Glyph.isLowerThan (a b : Glyph) : Bool :=
  decide (b.bottomY < a.bottomY)

/-- `WordTree._addGlyph(glyph)`: `this.glyphs.push(glyph)` (the
`item.addChild` call is visual only). -/
def addGlyph (st : St) (g : Glyph) : St :=
  { st with glyphs := st.glyphs ++ [g] }

/-- `path.firstSegment.point` of a trunk polyline. -/
def firstSegPoint (t : List Pt) : Pt := t.headD ⟨0, 0⟩

/-- `WordTree._adjustTrunk()`.  If there is a lowest glyph and
`distance = lowestGlyph.item.bounds.bottomLeft.y - firstGlyph.position.y`
exceeds `-branchBottomDistance`, a copy of the trunk's first segment is
inserted at index 0, moved down by `distance + branchBottomDistance`,
and the pivot is re-anchored to it.  (When `lowestGlyph` is set the
glyph list is never empty; the `[]` case is unreachable from `grow`.) -/
def adjustTrunk (bbd : Int) (st : St) : St :=
  match st.lowestGlyph, st.glyphs with
  | some low, first :: rest =>
    let distance := low.bottomY - first.pos.y
    if bbd * (-1) < distance then
      let p := firstSegPoint first.trunk
      let p' : Pt := ⟨p.x, p.y + distance + bbd⟩
      { st with glyphs := { first with trunk := p' :: first.trunk, pos := p' } :: rest }
    else st
  | _, _ => st

/-- The intersections of candidate branch `bA` with placed branch `bB`
that survive the filter of `_crossesGlyph`: intersections exactly at
the candidate's trunk-origin `p` are excluded. -/
def interList (o : Oracle) (p : Pt) (bA bB : Nat × Nat) : List Isect :=
  (o.inters bA bB).filter fun it => !decide (it.point = p)

/-- The test inside the innermost loop of `_crossesGlyph`:
`intersections.length && (intersections.length > 1 || intersections[0].isCrossing())`. -/
def badPair (o : Oracle) (p : Pt) (bA bB : Nat × Nat) : Bool :=
  match interList o p bA bB with
  | [] => false
  | first :: rest => decide (0 < rest.length) || first.isCrossing

/-- `WordTree._crossesGlyph(glyph)`: the candidate crosses the tree if
some pair of one of its branch outlines and a branch outline of a
placed glyph fails the intersection test. -/
def crossesGlyph (o : Oracle) (glyphs : List Glyph) (g : Glyph) : Bool :=
  glyphs.any fun gi =>
    g.branches.any fun bA =>
      gi.branches.any fun bB =>
        badPair o (firstSegPoint g.trunk) bA bB

/-- The body of the `for (const branch of prevGlyph.branches)` loop of
`_growRecursive`, for the next char `c` and remaining suffix handled by
the continuation `grec` (the recursive call on the accepted glyph).
`acc.2 = some e` means an exception is unwinding: the rest of the loop
is skipped. -/
def branchStep (o : Oracle) (bbd : Int) (c : Nat)
    (grec : Glyph → St → St × Option GrowErr)
    (acc : St × Option GrowErr) (b : Nat × Nat) : St × Option GrowErr :=
  match acc with
  | (st, some e) => (st, some e)
  | (st, none) =>
    match createGlyph o st.nextId (some c) with
    | .error e => (st, some e)
    | .ok fresh =>
      let g := alignAtBranch o fresh b
      let st1 := { st with nextId := st.nextId + 1 }
      let st2 := adjustTrunk bbd st1
      if crossesGlyph o st2.glyphs g then
        -- glyph.remove(): the candidate is discarded, nothing else changes
        ({ st2 with rejects := st2.rejects + 1 }, none)
      else
        let lowest' := match st2.lowestGlyph with
          | none => g
          | some lg => if g.isLowerThan lg then g else lg
        let st3 := addGlyph { st2 with lowestGlyph := some lowest' } g
        grec g st3

/-- `WordTree._growRecursive(prevGlyph, string)`. -/
def growRec (o : Oracle) (bbd : Int) (prev : Glyph) :
    List Nat → St → St × Option GrowErr
  | [], st => (st, none)
  | c :: rest, st =>
    prev.branches.foldl (branchStep o bbd c (fun g st' => growRec o bbd g rest st')) (st, none)

/-- `WordTree.grow(string)`: create the root glyph from `string[0]`,
add it unconditionally, then grow recursively with `string.slice(1)`.
(The final `this.item.pivot = glyph.item.pivot` is visual only.)
On an exception the returned state is the object state at throw time. -/
def grow (o : Oracle) (bbd : Int) (s : List Nat) (st : St) : St × Option GrowErr :=
  match createGlyph o st.nextId s.head? with
  | .error e => (st, some e)
  | .ok g =>
    let st1 := addGlyph { st with nextId := st.nextId + 1 } g
    growRec o bbd g s.tail st1

/-- The trunk polyline of the root glyph (`this.glyphs[0].trunk`). -/
def rootTrunk (st : St) : List Pt :=
  match st.glyphs with
  | [] => []
  | first :: _ => first.trunk

/-! ## `Tree._distributeTrees` (`src/src/Tree.js`)

A child tree, as read by `_distributeTrees`: its `position.x` and its
`item.bounds.width`.  The threshold `item.bounds.center.x` of the
parent's accumulated bounds is an input of the model (it is computed by
the geometry engine). -/

/-- A child tree reference with the geometry `_distributeTrees` reads. -/
structure TreeRef where
  id : Nat
  posX : Int
  width : Int
deriving DecidableEq, Repr

/-- The `{ left, center, right }` record returned by `_distributeTrees`. -/
structure Distributed where
  left : List TreeRef
  center : TreeRef
  right : List TreeRef
deriving DecidableEq, Repr

/-- The `else` arm of `Tree._distributeTrees()` (reached for zero or at
least four trees): partition by position against the threshold, then
pick the center tree.  `left.pop()` is `getLast?`/`dropLast`,
`right.shift()` is `head?`/`tail`.  `none` models a JavaScript crash:
the code reads `left[left.length - 1].item.bounds.width`
(resp. `right[0].item.bounds.width`), a member access on `undefined`
when the position partition left that group empty, and `left.pop()` on
an empty `left` yields an `undefined` center. -/
def distributeMany (thresholdX : Int) (ts : List TreeRef) : Option Distributed :=
  let left := ts.filter fun t => decide (t.posX < thresholdX)
  let right := ts.filter fun t => !decide (t.posX < thresholdX)
  if right.length = 1 then
    match left.getLast? with
    | some l => some ⟨left.dropLast, l, right⟩
    | none => none
  else
    match left.getLast?, right.head? with
    | some ll, some rh =>
      if ll.width < rh.width then some ⟨left.dropLast, ll, right⟩
      else some ⟨left, rh, right.tail⟩
    | _, _ => none

/-- `Tree._distributeTrees()`. -/
def distributeTrees (thresholdX : Int) : List TreeRef → Option Distributed
  | [t0] => some ⟨[], t0, []⟩
  | [t0, t1] => some ⟨[t0], t1, []⟩
  | [t0, t1, t2] => some ⟨[t0], t1, [t2]⟩
  | ts => distributeMany thresholdX ts

/-! ## `KerningInfo._getEdge` (`src/unnamed/part_001`)

The raster is modelled by its width, height and an alpha function
(`raster.getPixel(x, y).alpha`, zero meaning transparent). -/

/-- The inner `for (let i = 0; ...)` loop of `_getEdge` with `break`,
over the remaining scan indices `is`. -/
def edgeRowGo (w : Nat) (a : Nat → Nat) (sideLeft : Bool) : List Nat → Option Nat
  | [] => none
  | i :: is =>
    let x := if sideLeft then i else w - 1 - i
    if a x ≠ 0 then some (if sideLeft then x else w - 1 - x)
    else edgeRowGo w a sideLeft is

/-- One scanline of `_getEdge`: scan the `width` columns from the given
side inward and record the first inked column's edge value; `none` is
the unset array entry of a row with no ink. -/
def edgeRow (w : Nat) (a : Nat → Nat) (sideLeft : Bool) : Option Nat :=
  edgeRowGo w a sideLeft (List.range w)

/-- `KerningInfo._getEdge(raster, side)`: one edge entry per scanline.
(The `debug` `setPixel` call is visual only.) -/
def getEdge (w h : Nat) (alpha : Nat → Nat → Nat) (sideLeft : Bool) : List (Option Nat) :=
  (List.range h).map fun y => edgeRow w (fun x => alpha x y) sideLeft

/-! ## Derived notions used by the theorems -/

/-- `a` is a suffix of `b`. -/
def suffixOf (a b : List Pt) : Prop := ∃ c, c ++ a = b

/-- The length of a polyline under an arbitrary segment measure `μ`. -/
def polyLen (μ : Pt → Pt → ℚ) : List Pt → ℚ
  | p :: q :: rest => μ p q + polyLen μ (q :: rest)
  | _ => 0

/-- How a `WordTree` state evolves across any part of a `grow` run: the
glyph list only gains glyphs, the reject counter only grows, the root
glyph (and its char) stays the root, and the root trunk is only ever
extended at its start. -/
def Evolves (st st' : St) : Prop :=
  st.glyphs.length ≤ st'.glyphs.length ∧
  st.rejects ≤ st'.rejects ∧
  (st.glyphs ≠ [] → st'.glyphs ≠ [] ∧
    st'.glyphs.head?.map Glyph.char = st.glyphs.head?.map Glyph.char) ∧
  suffixOf (rootTrunk st) (rootTrunk st')

/-- The `lowestGlyph` invariant: it is unset until a glyph is accepted
during recursion, and otherwise refers to a non-root element of the
glyph list whose bottom edge is lowest among the non-root glyphs. -/
def LowInv (st : St) : Prop :=
  (st.lowestGlyph = none → st.glyphs.tail = []) ∧
  ∀ low, st.lowestGlyph = some low →
    low ∈ st.glyphs.tail ∧ ∀ g ∈ st.glyphs.tail, g.bottomY ≤ low.bottomY

/-- The pairwise geometric guarantee the crossing test enforces between
a later-placed glyph and an earlier-placed one. -/
def pairOk (o : Oracle) (later earlier : Glyph) : Prop :=
  ∀ bA ∈ later.branches, ∀ bB ∈ earlier.branches,
    badPair o (firstSegPoint later.trunk) bA bB = false

/-- Every pair of placed glyphs satisfies `pairOk` (earlier vs later). -/
def PairInv (o : Oracle) (st : St) : Prop :=
  st.glyphs.Pairwise fun earlier later => pairOk o later earlier

/-- The bundled invariant maintained by `_growRecursive` from the point
the root glyph has been added. -/
def GrowInv (o : Oracle) (st : St) : Prop :=
  st.glyphs ≠ [] ∧ LowInv st ∧ PairInv o st

/-! ## Basic lemmas -/

theorem suffixOf_refl (a : List Pt) : suffixOf a a := ⟨[], rfl⟩

theorem suffixOf_trans {a b c : List Pt} (h1 : suffixOf a b) (h2 : suffixOf b c) :
    suffixOf a c := by
  obtain ⟨u, rfl⟩ := h1
  obtain ⟨v, rfl⟩ := h2
  exact ⟨v ++ u, by simp⟩

theorem suffixOf_cons (p : Pt) (a : List Pt) : suffixOf a (p :: a) := ⟨[p], rfl⟩

theorem Evolves.refl (st : St) : Evolves st st :=
  ⟨le_refl _, le_refl _, fun h => ⟨h, rfl⟩, suffixOf_refl _⟩

theorem Evolves.trans {s1 s2 s3 : St} (h1 : Evolves s1 s2) (h2 : Evolves s2 s3) :
    Evolves s1 s3 := by
  obtain ⟨l1, r1, h1h, t1⟩ := h1
  obtain ⟨l2, r2, h2h, t2⟩ := h2
  refine ⟨le_trans l1 l2, le_trans r1 r2, ?_, suffixOf_trans t1 t2⟩
  intro hne
  obtain ⟨hne2, he2⟩ := h1h hne
  obtain ⟨hne3, he3⟩ := h2h hne2
  exact ⟨hne3, he3.trans he2⟩

/-- `_adjustTrunk` either leaves the state unchanged or replaces the
root glyph by one whose trunk gained a new first segment directly below
the old one, re-anchoring the pivot there. -/
theorem adjustTrunk_cases (bbd : Int) (st : St) :
    adjustTrunk bbd st = st ∨
    ∃ low first rest,
      st.lowestGlyph = some low ∧ st.glyphs = first :: rest ∧
      bbd * (-1) < low.bottomY - first.pos.y ∧
      adjustTrunk bbd st =
        { st with glyphs :=
            { first with
                trunk := (⟨(firstSegPoint first.trunk).x,
                           (firstSegPoint first.trunk).y + (low.bottomY - first.pos.y) + bbd⟩ : Pt)
                  :: first.trunk
                pos := ⟨(firstSegPoint first.trunk).x,
                        (firstSegPoint first.trunk).y + (low.bottomY - first.pos.y) + bbd⟩ } :: rest } := by
  obtain ⟨gl, lo, ni, re⟩ := st
  cases lo with
  | none => left; cases gl <;> rfl
  | some low =>
    cases gl with
    | nil => left; rfl
    | cons first rest =>
      by_cases hd : bbd * (-1) < low.bottomY - first.pos.y
      · right
        refine ⟨low, first, rest, rfl, rfl, hd, ?_⟩
        simp only [adjustTrunk, if_pos hd]
      · left
        simp only [adjustTrunk, if_neg hd]

theorem adjustTrunk_lowest (bbd : Int) (st : St) :
    (adjustTrunk bbd st).lowestGlyph = st.lowestGlyph := by
  rcases adjustTrunk_cases bbd st with h | ⟨low, first, rest, _, _, _, h⟩ <;> rw [h]

theorem adjustTrunk_tail (bbd : Int) (st : St) :
    (adjustTrunk bbd st).glyphs.tail = st.glyphs.tail := by
  rcases adjustTrunk_cases bbd st with h | ⟨low, first, rest, _, hg, _, h⟩
  · rw [h]
  · rw [h, hg]; rfl

theorem adjustTrunk_nextId (bbd : Int) (st : St) :
    (adjustTrunk bbd st).nextId = st.nextId := by
  rcases adjustTrunk_cases bbd st with h | ⟨low, first, rest, _, _, _, h⟩ <;> rw [h]

theorem adjustTrunk_rejects (bbd : Int) (st : St) :
    (adjustTrunk bbd st).rejects = st.rejects := by
  rcases adjustTrunk_cases bbd st with h | ⟨low, first, rest, _, _, _, h⟩ <;> rw [h]

/-- The per-glyph data `_adjustTrunk` can never change: identity, char,
branch outlines and bottom edge. -/
def glyphKey (g : Glyph) : Nat × Nat × List (Nat × Nat) × Int :=
  (g.id, g.char, g.branches, g.bottomY)

theorem adjustTrunk_keys (bbd : Int) (st : St) :
    (adjustTrunk bbd st).glyphs.map glyphKey = st.glyphs.map glyphKey := by
  rcases adjustTrunk_cases bbd st with h | ⟨low, first, rest, _, hg, _, h⟩
  · rw [h]
  · rw [h, hg]; rfl

theorem adjustTrunk_length (bbd : Int) (st : St) :
    (adjustTrunk bbd st).glyphs.length = st.glyphs.length := by
  have := congrArg List.length (adjustTrunk_keys bbd st)
  simpa using this

theorem adjustTrunk_evolves (bbd : Int) (st : St) : Evolves st (adjustTrunk bbd st) := by
  rcases adjustTrunk_cases bbd st with h | ⟨low, first, rest, _, hg, _, h⟩
  · rw [h]; exact Evolves.refl st
  · rw [h]
    refine ⟨?_, le_refl _, ?_, ?_⟩
    · rw [hg]; simp
    · intro _
      rw [hg]
      exact ⟨by simp, by simp⟩
    · unfold rootTrunk
      rw [hg]
      exact suffixOf_cons _ _

theorem evolves_of_glyphs_eq {st st' : St} (hg : st'.glyphs = st.glyphs)
    (hr : st.rejects ≤ st'.rejects) : Evolves st st' := by
  refine ⟨by rw [hg], hr, ?_, ?_⟩
  · intro h; rw [hg]; exact ⟨h, rfl⟩
  · unfold rootTrunk; rw [hg]; exact suffixOf_refl _

theorem evolves_append {st st' : St} (g : Glyph)
    (hg : st'.glyphs = st.glyphs ++ [g]) (hr : st.rejects ≤ st'.rejects) :
    Evolves st st' := by
  refine ⟨by rw [hg]; simp, hr, ?_, ?_⟩
  · intro h
    constructor
    · rw [hg]; simp
    · rw [hg]
      cases hc : st.glyphs with
      | nil => exact absurd hc h
      | cons a l => simp
  · unfold rootTrunk
    rw [hg]
    cases st.glyphs with
    | nil => exact ⟨_, List.append_nil _⟩
    | cons a l => exact suffixOf_refl _

/-! ## Computation laws of the branch loop -/

/-- State after the candidate instantiation and the `_adjustTrunk()`
call that precedes the crossing test. -/
def stepSt2 (_o : Oracle) (bbd : Int) (st : St) : St :=
  adjustTrunk bbd { st with nextId := st.nextId + 1 }

/-- `!lowestGlyph || glyph.isLowerThan(lowestGlyph) ? glyph : lowestGlyph`. -/
def newLowest (cur : Option Glyph) (g : Glyph) : Glyph :=
  match cur with
  | none => g
  | some lg => if g.isLowerThan lg then g else lg

/-- State after an accepted candidate `g` is recorded. -/
def acceptSt (st2 : St) (g : Glyph) : St :=
  addGlyph { st2 with lowestGlyph := some (newLowest st2.lowestGlyph g) } g

theorem branchStep_exn (o : Oracle) (bbd : Int) (c : Nat)
    (grec : Glyph → St → St × Option GrowErr) (st : St) (e : GrowErr) (b : Nat × Nat) :
    branchStep o bbd c grec (st, some e) b = (st, some e) := rfl

theorem createGlyph_of_hasDef {o : Oracle} {c : Nat} (k : Nat) (h : o.hasDef c = true) :
    createGlyph o k (some c) = .ok (mkGlyph o k c) := by
  simp [createGlyph, h]

theorem createGlyph_of_missing {o : Oracle} {c : Nat} (k : Nat) (h : o.hasDef c = false) :
    createGlyph o k (some c) = .error (.glyphNotFound c) := by
  simp [createGlyph, h]

theorem branchStep_notFound {o : Oracle} (bbd : Int) {c : Nat}
    (grec : Glyph → St → St × Option GrowErr) (st : St) (b : Nat × Nat)
    (h : o.hasDef c = false) :
    branchStep o bbd c grec (st, none) b = (st, some (.glyphNotFound c)) := by
  simp only [branchStep, createGlyph_of_missing st.nextId h]

theorem branchStep_reject {o : Oracle} {bbd : Int} {c : Nat}
    (grec : Glyph → St → St × Option GrowErr) {st : St} {b : Nat × Nat}
    (h : o.hasDef c = true)
    (hx : crossesGlyph o (stepSt2 o bbd st).glyphs
            (alignAtBranch o (mkGlyph o st.nextId c) b) = true) :
    branchStep o bbd c grec (st, none) b =
      ({ stepSt2 o bbd st with rejects := (stepSt2 o bbd st).rejects + 1 }, none) := by
  unfold stepSt2 at hx ⊢
  simp only [branchStep, createGlyph_of_hasDef st.nextId h]
  rw [if_pos hx]

theorem branchStep_accept {o : Oracle} {bbd : Int} {c : Nat}
    (grec : Glyph → St → St × Option GrowErr) {st : St} {b : Nat × Nat}
    (h : o.hasDef c = true)
    (hx : crossesGlyph o (stepSt2 o bbd st).glyphs
            (alignAtBranch o (mkGlyph o st.nextId c) b) = false) :
    branchStep o bbd c grec (st, none) b =
      grec (alignAtBranch o (mkGlyph o st.nextId c) b)
        (acceptSt (stepSt2 o bbd st) (alignAtBranch o (mkGlyph o st.nextId c) b)) := by
  unfold stepSt2 at hx
  unfold stepSt2 acceptSt newLowest addGlyph
  simp only [branchStep, createGlyph_of_hasDef st.nextId h]
  rw [if_neg (by rw [hx]; exact Bool.false_ne_true)]
  rfl

/-! ## Evolution of the state through `_growRecursive` -/

theorem evolves_stepSt2 (o : Oracle) (bbd : Int) (st : St) : Evolves st (stepSt2 o bbd st) := by
  have h1 : Evolves st { st with nextId := st.nextId + 1 } :=
    evolves_of_glyphs_eq rfl (le_refl _)
  exact h1.trans (adjustTrunk_evolves bbd _)

theorem evolves_acceptSt (st2 : St) (g : Glyph) : Evolves st2 (acceptSt st2 g) :=
  evolves_append g rfl (le_refl _)

theorem branchStep_evolves {o : Oracle} {bbd : Int} {c : Nat}
    {grec : Glyph → St → St × Option GrowErr}
    (hrec : ∀ g st, Evolves st (grec g st).1)
    (acc : St × Option GrowErr) (b : Nat × Nat) :
    Evolves acc.1 (branchStep o bbd c grec acc b).1 := by
  obtain ⟨st, err⟩ := acc
  cases err with
  | some e => rw [branchStep_exn]; exact Evolves.refl st
  | none =>
    cases h : o.hasDef c with
    | false => rw [branchStep_notFound bbd grec st b h]; exact Evolves.refl st
    | true =>
      cases hx : crossesGlyph o (stepSt2 o bbd st).glyphs
          (alignAtBranch o (mkGlyph o st.nextId c) b) with
      | true =>
        rw [branchStep_reject grec h hx]
        exact (evolves_stepSt2 o bbd st).trans
          (evolves_of_glyphs_eq rfl (Nat.le_succ _))
      | false =>
        rw [branchStep_accept grec h hx]
        exact ((evolves_stepSt2 o bbd st).trans (evolves_acceptSt _ _)).trans (hrec _ _)

theorem foldl_branchStep_evolves {o : Oracle} {bbd : Int} {c : Nat}
    {grec : Glyph → St → St × Option GrowErr}
    (hrec : ∀ g st, Evolves st (grec g st).1) :
    ∀ (bs : List (Nat × Nat)) (acc : St × Option GrowErr),
      Evolves acc.1 (bs.foldl (branchStep o bbd c grec) acc).1
  | [], _ => Evolves.refl _
  | b :: bs, acc =>
    (branchStep_evolves hrec acc b).trans
      (foldl_branchStep_evolves hrec bs (branchStep o bbd c grec acc b))

theorem growRec_evolves (o : Oracle) (bbd : Int) :
    ∀ (s : List Nat) (prev : Glyph) (st : St),
      Evolves st (growRec o bbd prev s st).1
  | [], _, st => Evolves.refl st
  | _ :: rest, prev, st =>
    foldl_branchStep_evolves
      (fun g st' => growRec_evolves o bbd rest g st') prev.branches (st, none)

theorem grow_evolves (o : Oracle) (bbd : Int) (s : List Nat) (st : St) :
    Evolves st (grow o bbd s st).1 := by
  unfold grow
  cases hc : createGlyph o st.nextId s.head? with
  | error e => exact Evolves.refl st
  | ok g =>
    have h1 : Evolves st (addGlyph { st with nextId := st.nextId + 1 } g) :=
      evolves_append g rfl (le_refl _)
    exact h1.trans (growRec_evolves o bbd s.tail g _)

/-! ## The crossing test, characterized -/

theorem badPair_eq_false_iff (o : Oracle) (p : Pt) (bA bB : Nat × Nat) :
    badPair o p bA bB = false ↔
      (interList o p bA bB).length ≤ 1 ∧
      ∀ it, interList o p bA bB = [it] → it.isCrossing = false := by
  unfold badPair
  cases h : interList o p bA bB with
  | nil => simp
  | cons first rest =>
    cases rest with
    | nil =>
      simp only [List.length_cons, List.length_nil]
      constructor
      · intro hb
        simp only [List.length_nil, decide_eq_true_eq, Bool.or_eq_false_iff] at hb
        exact ⟨by omega, fun it hit => by cases hit; exact hb.2⟩
      · intro ⟨_, hit⟩
        simp [hit first rfl]
    | cons second rest' =>
      simp only [List.length_cons]
      constructor
      · intro hb; simp at hb
      · intro ⟨hlen, _⟩; omega

theorem badPair_eq_true_iff (o : Oracle) (p : Pt) (bA bB : Nat × Nat) :
    badPair o p bA bB = true ↔
      1 < (interList o p bA bB).length ∨
      ∃ it, interList o p bA bB = [it] ∧ it.isCrossing = true := by
  unfold badPair
  cases h : interList o p bA bB with
  | nil => simp
  | cons first rest =>
    cases rest with
    | nil =>
      simp only [List.length_nil, List.length_cons, decide_eq_true_eq]
      constructor
      · intro hb
        simp only [Nat.lt_irrefl, decide_False, Bool.false_or] at hb
        exact Or.inr ⟨first, rfl, hb⟩
      · rintro (hlen | ⟨it, hit, hcr⟩)
        · omega
        · cases hit; simp [hcr]
    | cons second rest2 =>
      simp only [List.length_cons]
      constructor
      · intro _; left; omega
      · intro _; simp

theorem crossesGlyph_eq_false_iff (o : Oracle) (gl : List Glyph) (g : Glyph) :
    crossesGlyph o gl g = false ↔ ∀ gi ∈ gl, pairOk o g gi := by
  unfold crossesGlyph pairOk
  simp [List.any_eq_false]

theorem crossesGlyph_eq_true_iff (o : Oracle) (gl : List Glyph) (g : Glyph) :
    crossesGlyph o gl g = true ↔
      ∃ gi ∈ gl, ∃ bA ∈ g.branches, ∃ bB ∈ gi.branches,
        badPair o (firstSegPoint g.trunk) bA bB = true := by
  unfold crossesGlyph
  simp [List.any_eq_true]

theorem pairOk_congr_branches {o : Oracle} {later e1 e2 : Glyph}
    (hb : e2.branches = e1.branches) (h : pairOk o later e1) : pairOk o later e2 := by
  intro bA hbA bB hbB
  exact h bA hbA bB (hb ▸ hbB)

/-! ## Preservation of the growth invariant -/

theorem lowInv_adjustTrunk (bbd : Int) {st : St} (h : LowInv st) :
    LowInv (adjustTrunk bbd st) := by
  obtain ⟨hn, hs⟩ := h
  constructor
  · rw [adjustTrunk_lowest, adjustTrunk_tail]; exact hn
  · intro low hlow
    rw [adjustTrunk_lowest] at hlow
    rw [adjustTrunk_tail]
    exact hs low hlow

theorem pairInv_adjustTrunk (o : Oracle) (bbd : Int) {st : St} (h : PairInv o st) :
    PairInv o (adjustTrunk bbd st) := by
  unfold PairInv at h ⊢
  rcases adjustTrunk_cases bbd st with heq | ⟨low, first, rest, _, hg, _, heq⟩
  · rw [heq]; exact h
  · rw [heq]
    rw [hg] at h
    rw [List.pairwise_cons] at h ⊢
    refine ⟨fun b hb => ?_, h.2⟩
    exact pairOk_congr_branches rfl (h.1 b hb)

theorem growInv_adjustTrunk (o : Oracle) (bbd : Int) {st : St} (h : GrowInv o st) :
    GrowInv o (adjustTrunk bbd st) := by
  obtain ⟨hne, hl, hp⟩ := h
  refine ⟨?_, lowInv_adjustTrunk bbd hl, pairInv_adjustTrunk o bbd hp⟩
  intro hc
  have hlen := adjustTrunk_length bbd st
  rw [hc] at hlen
  simp only [List.length_nil] at hlen
  exact hne (List.length_eq_zero.mp hlen.symm)

theorem newLowest_none (g : Glyph) : newLowest none g = g := rfl

theorem newLowest_some (lg g : Glyph) :
    newLowest (some lg) g = if g.isLowerThan lg then g else lg := rfl

theorem acceptSt_glyphs (st2 : St) (g : Glyph) :
    (acceptSt st2 g).glyphs = st2.glyphs ++ [g] := rfl

theorem acceptSt_lowest (st2 : St) (g : Glyph) :
    (acceptSt st2 g).lowestGlyph = some (newLowest st2.lowestGlyph g) := rfl

theorem growInv_accept (o : Oracle) {st2 : St} (g : Glyph)
    (hinv : GrowInv o st2)
    (hx : crossesGlyph o st2.glyphs g = false) :
    GrowInv o (acceptSt st2 g) := by
  obtain ⟨hne, ⟨hln, hls⟩, hp⟩ := hinv
  obtain ⟨g0, gl, hgl⟩ : ∃ g0 gl, st2.glyphs = g0 :: gl := by
    cases hc : st2.glyphs with
    | nil => exact absurd hc hne
    | cons a l => exact ⟨a, l, rfl⟩
  have htail : (acceptSt st2 g).glyphs.tail = gl ++ [g] := by
    rw [acceptSt_glyphs, hgl]; rfl
  refine ⟨?_, ⟨?_, ?_⟩, ?_⟩
  · rw [acceptSt_glyphs]; simp
  · intro hnone
    rw [acceptSt_lowest] at hnone
    cases hnone
  · intro low hlow
    rw [acceptSt_lowest, Option.some_inj] at hlow
    subst hlow
    rw [htail]
    cases hcur : st2.lowestGlyph with
    | none =>
      have hnil : gl = [] := by
        have := hln hcur
        rwa [hgl, List.tail_cons] at this
      subst hnil
      rw [newLowest_none]
      refine ⟨by simp, fun x hx' => ?_⟩
      simp only [List.nil_append, List.mem_singleton] at hx'
      rw [hx']
    | some lg =>
      obtain ⟨hmem, hbound⟩ := hls lg hcur
      rw [hgl, List.tail_cons] at hmem hbound
      rw [newLowest_some]
      by_cases hlow2 : g.isLowerThan lg = true
      · rw [if_pos hlow2]
        unfold Glyph.isLowerThan at hlow2
        simp only [decide_eq_true_eq] at hlow2
        refine ⟨by simp, fun x hx' => ?_⟩
        rcases List.mem_append.mp hx' with h' | h'
        · exact le_of_lt (lt_of_le_of_lt (hbound x h') hlow2)
        · simp only [List.mem_singleton] at h'
          rw [h']
      · rw [if_neg hlow2]
        unfold Glyph.isLowerThan at hlow2
        simp only [decide_eq_true_eq, not_lt] at hlow2
        refine ⟨List.mem_append_left _ hmem, fun x hx' => ?_⟩
        rcases List.mem_append.mp hx' with h' | h'
        · exact hbound x h'
        · simp only [List.mem_singleton] at h'
          rw [h']
          exact hlow2
  · unfold PairInv
    rw [acceptSt_glyphs, List.pairwise_append]
    refine ⟨hp, List.pairwise_singleton _ _, ?_⟩
    intro a ha b hb
    simp only [List.mem_singleton] at hb
    rw [hb]
    exact (crossesGlyph_eq_false_iff o st2.glyphs g).mp hx a ha

theorem growInv_nextId {o : Oracle} {st : St} (n : Nat) (h : GrowInv o st) :
    GrowInv o { st with nextId := n } := h

theorem growInv_stepSt2 (o : Oracle) (bbd : Int) {st : St} (h : GrowInv o st) :
    GrowInv o (stepSt2 o bbd st) :=
  growInv_adjustTrunk o bbd (growInv_nextId _ h)

theorem growInv_rejects {o : Oracle} {st : St} (n : Nat) (h : GrowInv o st) :
    GrowInv o { st with rejects := n } := h

theorem branchStep_inv {o : Oracle} {bbd : Int} {c : Nat}
    {grec : Glyph → St → St × Option GrowErr}
    (hrec : ∀ g st, GrowInv o st → GrowInv o (grec g st).1)
    (acc : St × Option GrowErr) (b : Nat × Nat)
    (hinv : GrowInv o acc.1) :
    GrowInv o (branchStep o bbd c grec acc b).1 := by
  obtain ⟨st, err⟩ := acc
  cases err with
  | some e => rw [branchStep_exn]; exact hinv
  | none =>
    cases h : o.hasDef c with
    | false => rw [branchStep_notFound bbd grec st b h]; exact hinv
    | true =>
      cases hx : crossesGlyph o (stepSt2 o bbd st).glyphs
          (alignAtBranch o (mkGlyph o st.nextId c) b) with
      | true =>
        rw [branchStep_reject grec h hx]
        exact growInv_rejects _ (growInv_stepSt2 o bbd hinv)
      | false =>
        rw [branchStep_accept grec h hx]
        exact hrec _ _ (growInv_accept o _ (growInv_stepSt2 o bbd hinv) hx)

theorem foldl_branchStep_inv {o : Oracle} {bbd : Int} {c : Nat}
    {grec : Glyph → St → St × Option GrowErr}
    (hrec : ∀ g st, GrowInv o st → GrowInv o (grec g st).1) :
    ∀ (bs : List (Nat × Nat)) (acc : St × Option GrowErr),
      GrowInv o acc.1 → GrowInv o (bs.foldl (branchStep o bbd c grec) acc).1
  | [], _, hinv => hinv
  | b :: bs, acc, hinv =>
    foldl_branchStep_inv hrec bs (branchStep o bbd c grec acc b)
      (branchStep_inv hrec acc b hinv)

theorem growRec_inv (o : Oracle) (bbd : Int) :
    ∀ (s : List Nat) (prev : Glyph) (st : St),
      GrowInv o st → GrowInv o (growRec o bbd prev s st).1
  | [], _, _, hinv => hinv
  | _ :: rest, prev, st, hinv =>
    foldl_branchStep_inv
      (fun g st' => growRec_inv o bbd rest g st') prev.branches (st, none) hinv

/-- After the root glyph is added in `grow`, the invariant holds. -/
theorem growInv_root (o : Oracle) (st : St) (g : Glyph)
    (hg : st.glyphs = [] ∧ st.lowestGlyph = none) :
    GrowInv o (addGlyph { st with nextId := st.nextId + 1 } g) := by
  obtain ⟨h1, h2⟩ := hg
  refine ⟨?_, ⟨?_, ?_⟩, ?_⟩
  · show st.glyphs ++ [g] ≠ []
    simp
  · intro _
    show (st.glyphs ++ [g]).tail = []
    rw [h1]; rfl
  · intro low hlow
    exact absurd (h2 ▸ hlow : (none : Option Glyph) = some low) (by simp)
  · show (st.glyphs ++ [g]).Pairwise _
    rw [h1]
    exact List.pairwise_singleton _ _

/-- The two invariant components hold of the final state of any `grow`
call started on a fresh `WordTree`. -/
theorem grow_inv (o : Oracle) (bbd : Int) (s : List Nat) :
    LowInv (grow o bbd s St.init).1 ∧ PairInv o (grow o bbd s St.init).1 := by
  unfold grow
  cases hc : createGlyph o St.init.nextId s.head? with
  | error e =>
    refine ⟨⟨fun _ => rfl, fun low hlow => ?_⟩, List.Pairwise.nil⟩
    exact absurd hlow (by simp [St.init])
  | ok g =>
    have h := growRec_inv o bbd s.tail g
      (addGlyph { St.init with nextId := St.init.nextId + 1 } g)
      (growInv_root o St.init g ⟨rfl, rfl⟩)
    exact ⟨h.2.1, h.2.2⟩

/-! ## Error behaviour of growth -/

theorem branchStep_err {o : Oracle} {bbd : Int} {c : Nat}
    {grec : Glyph → St → St × Option GrowErr} {Q : GrowErr → Prop}
    (hrec : ∀ g st e, (grec g st).2 = some e → Q e)
    (hmiss : o.hasDef c = false → Q (.glyphNotFound c))
    (acc : St × Option GrowErr) (b : Nat × Nat)
    (hacc : ∀ e, acc.2 = some e → Q e) :
    ∀ e, (branchStep o bbd c grec acc b).2 = some e → Q e := by
  obtain ⟨st, err⟩ := acc
  cases err with
  | some e0 =>
    rw [branchStep_exn]
    exact hacc
  | none =>
    cases h : o.hasDef c with
    | false =>
      rw [branchStep_notFound bbd grec st b h]
      intro e he
      simp only [Option.some_inj] at he
      rw [← he]
      exact hmiss h
    | true =>
      cases hx : crossesGlyph o (stepSt2 o bbd st).glyphs
          (alignAtBranch o (mkGlyph o st.nextId c) b) with
      | true =>
        rw [branchStep_reject grec h hx]
        intro e he
        cases he
      | false =>
        rw [branchStep_accept grec h hx]
        exact hrec _ _

theorem foldl_branchStep_err {o : Oracle} {bbd : Int} {c : Nat}
    {grec : Glyph → St → St × Option GrowErr} (Q : GrowErr → Prop)
    (hrec : ∀ g st e, (grec g st).2 = some e → Q e)
    (hmiss : o.hasDef c = false → Q (.glyphNotFound c)) :
    ∀ (bs : List (Nat × Nat)) (acc : St × Option GrowErr),
      (∀ e, acc.2 = some e → Q e) →
      ∀ e, (bs.foldl (branchStep o bbd c grec) acc).2 = some e → Q e
  | [], _, hacc => hacc
  | b :: bs, acc, hacc =>
    foldl_branchStep_err Q hrec hmiss bs (branchStep o bbd c grec acc b)
      (branchStep_err hrec hmiss acc b hacc)

/-- An exception escaping `_growRecursive` is a glyph-not-found error
for a character of the remaining suffix that has no definition. -/
theorem growRec_err (o : Oracle) (bbd : Int) :
    ∀ (s : List Nat) (prev : Glyph) (st : St) (e : GrowErr),
      (growRec o bbd prev s st).2 = some e →
      ∃ c ∈ s, e = .glyphNotFound c ∧ o.hasDef c = false
  | [], _, _, e, h => by cases h
  | c :: rest, prev, st, e, h => by
    refine foldl_branchStep_err (fun e' =>
        ∃ c' ∈ c :: rest, e' = .glyphNotFound c' ∧ o.hasDef c' = false)
      ?_ ?_ prev.branches (st, none) (fun _ h' => by cases h') e h
    · intro g st' e' he'
      obtain ⟨c', hc', he2, hd⟩ := growRec_err o bbd rest g st' e' he'
      exact ⟨c', List.mem_cons_of_mem c hc', he2, hd⟩
    · intro hd
      exact ⟨c, List.mem_cons_self c rest, rfl, hd⟩

theorem branchStep_none {o : Oracle} {bbd : Int} {c : Nat}
    {grec : Glyph → St → St × Option GrowErr}
    (hrec : ∀ g st, (grec g st).2 = none)
    (hdef : o.hasDef c = true)
    (acc : St × Option GrowErr) (b : Nat × Nat) (hacc : acc.2 = none) :
    (branchStep o bbd c grec acc b).2 = none := by
  obtain ⟨st, err⟩ := acc
  cases err with
  | some e0 => cases hacc
  | none =>
    cases hx : crossesGlyph o (stepSt2 o bbd st).glyphs
        (alignAtBranch o (mkGlyph o st.nextId c) b) with
    | true => rw [branchStep_reject grec hdef hx]
    | false => rw [branchStep_accept grec hdef hx]; exact hrec _ _

theorem foldl_branchStep_none {o : Oracle} {bbd : Int} {c : Nat}
    {grec : Glyph → St → St × Option GrowErr}
    (hrec : ∀ g st, (grec g st).2 = none)
    (hdef : o.hasDef c = true) :
    ∀ (bs : List (Nat × Nat)) (acc : St × Option GrowErr), acc.2 = none →
      (bs.foldl (branchStep o bbd c grec) acc).2 = none
  | [], _, hacc => hacc
  | b :: bs, acc, hacc =>
    foldl_branchStep_none hrec hdef bs (branchStep o bbd c grec acc b)
      (branchStep_none hrec hdef acc b hacc)

/-- When every character of the suffix has a glyph definition,
`_growRecursive` completes without an exception. -/
theorem growRec_noErr (o : Oracle) (bbd : Int) :
    ∀ (s : List Nat), (∀ c ∈ s, o.hasDef c = true) →
      ∀ (prev : Glyph) (st : St), (growRec o bbd prev s st).2 = none
  | [], _, _, _ => rfl
  | c :: rest, hdef, prev, st =>
    foldl_branchStep_none
      (fun g st' => growRec_noErr o bbd rest
        (fun c' hc' => hdef c' (List.mem_cons_of_mem c hc')) g st')
      (hdef c (List.mem_cons_self c rest)) prev.branches (st, none) rfl

/-! ## Growth with single-branch glyphs -/

theorem alignAtBranch_branches (o : Oracle) (g : Glyph) (b : Nat × Nat) :
    (alignAtBranch o g b).branches = g.branches := rfl

theorem mkGlyph_branches_length (o : Oracle) (k c : Nat) :
    (mkGlyph o k c).branches.length = o.nBranches c := by
  simp [mkGlyph]

theorem stepSt2_length (o : Oracle) (bbd : Int) (st : St) :
    (stepSt2 o bbd st).glyphs.length = st.glyphs.length :=
  adjustTrunk_length bbd _

theorem stepSt2_rejects (o : Oracle) (bbd : Int) (st : St) :
    (stepSt2 o bbd st).rejects = st.rejects :=
  adjustTrunk_rejects bbd _

theorem acceptSt_rejects (st2 : St) (g : Glyph) :
    (acceptSt st2 g).rejects = st2.rejects := rfl

/-- In a font whose glyphs all expose exactly one branch, growth is a
chain: every remaining character adds exactly one glyph unless the
chain is cut by a single rejection, in which case strictly fewer than
the remaining characters are added and growth stops. -/
theorem growRec_single (o : Oracle) (bbd : Int) :
    ∀ (s : List Nat), (∀ c ∈ s, o.hasDef c = true ∧ o.nBranches c = 1) →
      ∀ (prev : Glyph), prev.branches.length = 1 → ∀ (st : St),
      (growRec o bbd prev s st).2 = none ∧
      st.rejects ≤ (growRec o bbd prev s st).1.rejects ∧
      ((growRec o bbd prev s st).1.rejects = st.rejects →
        (growRec o bbd prev s st).1.glyphs.length = st.glyphs.length + s.length) ∧
      (st.rejects < (growRec o bbd prev s st).1.rejects →
        (growRec o bbd prev s st).1.glyphs.length < st.glyphs.length + s.length)
  | [], _, prev, _, st => by
    refine ⟨rfl, le_refl _, fun _ => by simp [growRec], fun h => absurd h (lt_irrefl _)⟩
  | c :: rest, hdef, prev, hb, st => by
    obtain ⟨b, hbr⟩ := List.length_eq_one.mp hb
    have hdc : o.hasDef c = true := (hdef c (List.mem_cons_self c rest)).1
    have hnc : o.nBranches c = 1 := (hdef c (List.mem_cons_self c rest)).2
    have hrun : growRec o bbd prev (c :: rest) st =
        branchStep o bbd c (fun g st' => growRec o bbd g rest st') (st, none) b := by
      show prev.branches.foldl _ (st, none) = _
      rw [hbr]
      rfl
    have hgb : (alignAtBranch o (mkGlyph o st.nextId c) b).branches.length = 1 := by
      rw [alignAtBranch_branches, mkGlyph_branches_length, hnc]
    cases hx : crossesGlyph o (stepSt2 o bbd st).glyphs
        (alignAtBranch o (mkGlyph o st.nextId c) b) with
    | true =>
      rw [hrun, branchStep_reject _ hdc hx]
      refine ⟨rfl, ?_, ?_, ?_⟩
      · show st.rejects ≤ (stepSt2 o bbd st).rejects + 1
        rw [stepSt2_rejects]; omega
      · show (stepSt2 o bbd st).rejects + 1 = st.rejects → _
        rw [stepSt2_rejects]; omega
      · show st.rejects < (stepSt2 o bbd st).rejects + 1 →
          (stepSt2 o bbd st).glyphs.length < st.glyphs.length + (c :: rest).length
        rw [stepSt2_rejects, stepSt2_length]
        intro _
        simp only [List.length_cons]
        omega
    | false =>
      rw [hrun, branchStep_accept _ hdc hx]
      have ih := growRec_single o bbd rest
        (fun c' hc' => hdef c' (List.mem_cons_of_mem c hc'))
        (alignAtBranch o (mkGlyph o st.nextId c) b) hgb
        (acceptSt (stepSt2 o bbd st) (alignAtBranch o (mkGlyph o st.nextId c) b))
      obtain ⟨ih1, ih2, ih3, ih4⟩ := ih
      have hlen3 : (acceptSt (stepSt2 o bbd st)
          (alignAtBranch o (mkGlyph o st.nextId c) b)).glyphs.length
            = st.glyphs.length + 1 := by
        rw [acceptSt_glyphs, List.length_append, stepSt2_length]
        rfl
      have hrej3 : (acceptSt (stepSt2 o bbd st)
          (alignAtBranch o (mkGlyph o st.nextId c) b)).rejects = st.rejects := by
        rw [acceptSt_rejects, stepSt2_rejects]
      refine ⟨ih1, ?_, ?_, ?_⟩
      · rw [← hrej3]; exact ih2
      · intro heq
        rw [← hrej3] at heq
        have := ih3 heq
        rw [hlen3] at this
        simp only [List.length_cons]
        omega
      · intro hlt
        rw [← hrej3] at hlt
        rcases lt_or_eq_of_le ih2 with hlt2 | heq2
        · have := ih4 hlt2
          rw [hlen3] at this
          simp only [List.length_cons]
          omega
        · exact absurd (heq2 ▸ hlt) (lt_irrefl _)

/-! ## Characterizing the edge scan -/

theorem edgeRowGo_none_iff (w : Nat) (a : Nat → Nat) (side : Bool) :
    ∀ (n i : Nat), edgeRowGo w a side (List.range' i n) = none ↔
      ∀ j, i ≤ j → j < i + n → a (if side then j else w - 1 - j) = 0
  | 0, i => by
    simp only [List.range'_zero, edgeRowGo]
    constructor
    · intro _ j h1 h2
      omega
    · intro _
      trivial
  | n + 1, i => by
    rw [List.range'_succ]
    show (if a (if side then i else w - 1 - i) ≠ 0 then _ else _) = none ↔ _
    by_cases h : a (if side then i else w - 1 - i) ≠ 0
    · rw [if_pos h]
      constructor
      · intro hc
        cases hc
      · intro hall
        exact absurd (hall i (le_refl i) (by omega)) h
    · rw [if_neg h]
      push_neg at h
      rw [edgeRowGo_none_iff w a side n (i + 1)]
      constructor
      · intro hall j h1 h2
        rcases Nat.eq_or_lt_of_le h1 with rfl | h1'
        · exact h
        · exact hall j h1' (by omega)
      · intro hall j h1 h2
        exact hall j (by omega) (by omega)

theorem edgeRowGo_some_iff (w : Nat) (a : Nat → Nat) (side : Bool) :
    ∀ (n i : Nat) (v : Nat), edgeRowGo w a side (List.range' i n) = some v ↔
      ∃ j, i ≤ j ∧ j < i + n ∧ a (if side then j else w - 1 - j) ≠ 0 ∧
        (∀ k, i ≤ k → k < j → a (if side then k else w - 1 - k) = 0) ∧
        v = (if side then j else w - 1 - (w - 1 - j))
  | 0, i, v => by
    simp only [List.range'_zero, edgeRowGo]
    constructor
    · intro hc
      cases hc
    · rintro ⟨j, h1, h2, _⟩
      omega
  | n + 1, i, v => by
    rw [List.range'_succ]
    show (if a (if side then i else w - 1 - i) ≠ 0 then some _ else _) = some v ↔ _
    by_cases h : a (if side then i else w - 1 - i) ≠ 0
    · rw [if_pos h]
      constructor
      · intro hv
        simp only [Option.some_inj] at hv
        refine ⟨i, le_refl i, by omega, h, fun k h1 h2 => by omega, ?_⟩
        rw [← hv]
        cases side <;> simp
      · rintro ⟨j, h1, h2, hj, hprev, hv⟩
        rcases Nat.eq_or_lt_of_le h1 with rfl | h1'
        · rw [hv]
          cases side <;> simp
        · exact absurd (hprev i (le_refl i) h1') h
    · rw [if_neg h]
      push_neg at h
      rw [edgeRowGo_some_iff w a side n (i + 1)]
      constructor
      · rintro ⟨j, h1, h2, hj, hprev, hv⟩
        refine ⟨j, by omega, by omega, hj, ?_, hv⟩
        intro k hk1 hk2
        rcases Nat.eq_or_lt_of_le hk1 with rfl | hk1'
        · exact h
        · exact hprev k hk1' hk2
      · rintro ⟨j, h1, h2, hj, hprev, hv⟩
        have hne : j ≠ i := by
          rintro rfl
          exact hj h
        refine ⟨j, by omega, by omega, hj, fun k hk1 hk2 => hprev k (by omega) hk2, hv⟩

/-- A row with no ink (for either side) is left unset. -/
theorem edgeRow_none_iff (w : Nat) (a : Nat → Nat) (side : Bool) :
    edgeRow w a side = none ↔ ∀ x, x < w → a x = 0 := by
  rw [edgeRow, List.range_eq_range', edgeRowGo_none_iff w a side w 0]
  cases side with
  | true =>
    simp only [if_pos rfl]
    constructor
    · intro h x hx
      exact h x (Nat.zero_le x) (by omega)
    · intro h j _ hj
      exact h j (by omega)
  | false =>
    simp only [if_neg Bool.false_ne_true]
    constructor
    · intro h x hx
      have := h (w - 1 - x) (Nat.zero_le _) (by omega)
      rwa [show w - 1 - (w - 1 - x) = x by omega] at this
    · intro h j _ hj
      exact h (w - 1 - j) (by omega)

/-- The left profile records the leftmost inked column of the row. -/
theorem edgeRow_left_some_iff (w : Nat) (a : Nat → Nat) (v : Nat) :
    edgeRow w a true = some v ↔
      v < w ∧ a v ≠ 0 ∧ ∀ x, x < v → a x = 0 := by
  rw [edgeRow, List.range_eq_range', edgeRowGo_some_iff w a true w 0]
  simp only [if_pos rfl]
  constructor
  · rintro ⟨j, _, hj2, hj, hprev, rfl⟩
    exact ⟨by omega, hj, fun x hx => hprev x (Nat.zero_le x) hx⟩
  · rintro ⟨hv, hav, hprev⟩
    exact ⟨v, Nat.zero_le v, by omega, hav, fun k _ hk => hprev k hk, rfl⟩

/-- The right profile records the offset of the rightmost inked column
from the right edge (`width - 1 - x`), not the column itself. -/
theorem edgeRow_right_some_iff (w : Nat) (a : Nat → Nat) (v : Nat) :
    edgeRow w a false = some v ↔
      ∃ x, x < w ∧ a x ≠ 0 ∧ (∀ y, x < y → y < w → a y = 0) ∧ v = w - 1 - x := by
  rw [edgeRow, List.range_eq_range', edgeRowGo_some_iff w a false w 0]
  simp only [if_neg Bool.false_ne_true]
  constructor
  · rintro ⟨j, _, hj2, hj, hprev, hv⟩
    refine ⟨w - 1 - j, by omega, hj, ?_, by omega⟩
    intro y hy1 hy2
    have := hprev (w - 1 - y) (Nat.zero_le _) (by omega)
    rwa [show w - 1 - (w - 1 - y) = y by omega] at this
  · rintro ⟨x, hx, hax, hafter, rfl⟩
    refine ⟨w - 1 - x, Nat.zero_le _, by omega, ?_, ?_, by omega⟩
    · rwa [show w - 1 - (w - 1 - x) = x by omega]
    · intro k _ hk
      exact hafter (w - 1 - k) (by omega) (by omega)

theorem getEdge_row (w h : Nat) (alpha : Nat → Nat → Nat) (side : Bool)
    (y : Nat) (hy : y < h) :
    (getEdge w h alpha side)[y]? = some (edgeRow w (fun x => alpha x y) side) := by
  unfold getEdge
  rw [List.getElem?_map, List.getElem?_range hy]
  rfl

/-! ## Polyline length -/

theorem polyLen_cons_le (μ : Pt → Pt → ℚ) (hμ : ∀ p q, 0 ≤ μ p q)
    (p : Pt) (l : List Pt) : polyLen μ l ≤ polyLen μ (p :: l) := by
  cases l with
  | nil => simp [polyLen]
  | cons q r =>
    show polyLen μ (q :: r) ≤ μ p q + polyLen μ (q :: r)
    have := hμ p q
    linarith

theorem polyLen_suffix_le (μ : Pt → Pt → ℚ) (hμ : ∀ p q, 0 ≤ μ p q)
    {a b : List Pt} (h : suffixOf a b) : polyLen μ a ≤ polyLen μ b := by
  obtain ⟨c, rfl⟩ := h
  induction c with
  | nil => simp
  | cons p c' ih => exact le_trans ih (polyLen_cons_le μ hμ p (c' ++ a))

/-! ## Claim theorems -/

/-- C3: during WordTree growth, whenever the distance from the lowest
placed glyph's bottom edge to the root glyph's origin is less than
`branchBottomDistance`, the trunk-adjustment step extends the root
glyph's trunk downward by exactly the deficit (the signed distance
`lowestGlyph.bottom.y - root.position.y`) plus `branchBottomDistance`,
inserting a new trunk start directly below the old one and re-anchoring
the root glyph's pivot to it; otherwise the trunk is unchanged. -/
theorem adjustTrunk_spec (bbd : Int) (st : St) (low first : Glyph) (rest : List Glyph)
    (hlow : st.lowestGlyph = some low) (hg : st.glyphs = first :: rest) :
    (first.pos.y - low.bottomY < bbd →
      adjustTrunk bbd st =
        { st with glyphs :=
            { first with
                trunk := (⟨(firstSegPoint first.trunk).x,
                           (firstSegPoint first.trunk).y + (low.bottomY - first.pos.y) + bbd⟩ : Pt)
                  :: first.trunk
                pos := ⟨(firstSegPoint first.trunk).x,
                        (firstSegPoint first.trunk).y + (low.bottomY - first.pos.y) + bbd⟩ } :: rest }) ∧
    (bbd ≤ first.pos.y - low.bottomY → adjustTrunk bbd st = st) := by
  obtain ⟨gl, lo, ni, re⟩ := st
  have hlow' : lo = some low := hlow
  have hg' : gl = first :: rest := hg
  subst hlow'
  subst hg'
  constructor
  · intro hcond
    have hd : bbd * (-1) < low.bottomY - first.pos.y := by omega
    simp only [adjustTrunk, if_pos hd]
  · intro hcond
    have hd : ¬(bbd * (-1) < low.bottomY - first.pos.y) := by omega
    simp only [adjustTrunk, if_neg hd]

def c3First : Glyph := ⟨0, 97, [(0, 0)], [⟨0, 0⟩, ⟨0, -20⟩], 5, ⟨0, 0⟩⟩

def c3Low : Glyph := ⟨1, 98, [(1, 0)], [⟨0, -20⟩], 10, ⟨0, -20⟩⟩

def c3St : St := ⟨[c3First, c3Low], some c3Low, 2, 0⟩

theorem adjustTrunk_spec_witness :
    c3First.pos.y - c3Low.bottomY < 30 ∧
    adjustTrunk 30 c3St =
      { c3St with glyphs :=
          { c3First with
              trunk := (⟨(firstSegPoint c3First.trunk).x,
                         (firstSegPoint c3First.trunk).y + (c3Low.bottomY - c3First.pos.y) + 30⟩ : Pt)
                :: c3First.trunk
              pos := ⟨(firstSegPoint c3First.trunk).x,
                      (firstSegPoint c3First.trunk).y + (c3Low.bottomY - c3First.pos.y) + 30⟩ } :: [c3Low] } :=
  ⟨by decide,
    (adjustTrunk_spec 30 c3St c3Low c3First [c3Low] rfl rfl).1 (by decide)⟩

/-- C7: within a single `grow` call the root glyph's trunk is only ever
extended: every `_adjustTrunk` step, every `_growRecursive` sub-run and
every whole `grow` run leave the old root trunk as a suffix of the new
one, so its length is monotonically non-decreasing under any
non-negative segment measure. -/
theorem trunk_monotone (o : Oracle) (bbd : Int) (μ : Pt → Pt → ℚ)
    (hμ : ∀ p q, 0 ≤ μ p q) :
    (∀ st : St, suffixOf (rootTrunk st) (rootTrunk (adjustTrunk bbd st)) ∧
      polyLen μ (rootTrunk st) ≤ polyLen μ (rootTrunk (adjustTrunk bbd st))) ∧
    (∀ (s : List Nat) (prev : Glyph) (st : St),
      suffixOf (rootTrunk st) (rootTrunk (growRec o bbd prev s st).1) ∧
      polyLen μ (rootTrunk st) ≤ polyLen μ (rootTrunk (growRec o bbd prev s st).1)) ∧
    (∀ (s : List Nat) (st : St),
      suffixOf (rootTrunk st) (rootTrunk (grow o bbd s st).1) ∧
      polyLen μ (rootTrunk st) ≤ polyLen μ (rootTrunk (grow o bbd s st).1)) := by
  refine ⟨fun st => ?_, fun s prev st => ?_, fun s st => ?_⟩
  · have hs : suffixOf (rootTrunk st) (rootTrunk (adjustTrunk bbd st)) := by
      rcases adjustTrunk_cases bbd st with h | ⟨low, first, rest, _, hg, _, h⟩
      · rw [h]; exact suffixOf_refl _
      · rw [h]
        unfold rootTrunk
        rw [hg]
        exact suffixOf_cons _ _
    exact ⟨hs, polyLen_suffix_le μ hμ hs⟩
  · have hs := (growRec_evolves o bbd s prev st).2.2.2
    exact ⟨hs, polyLen_suffix_le μ hμ hs⟩
  · have hs := (grow_evolves o bbd s st).2.2.2
    exact ⟨hs, polyLen_suffix_le μ hμ hs⟩

def c7mu (p q : Pt) : ℚ := ((p.x - q.x).natAbs + (p.y - q.y).natAbs : ℚ)

def c7O : Oracle :=
  { hasDef := fun _ => true
    nBranches := fun _ => 1
    trunk0 := fun _ => [⟨0, 0⟩, ⟨0, -10⟩]
    bottom0 := fun _ => 0
    pos0 := fun _ => ⟨0, 0⟩
    alignTrunk := fun _ _ => [⟨0, -10⟩, ⟨0, -15⟩]
    alignBottom := fun _ _ => -2
    alignPos := fun _ _ => ⟨0, -10⟩
    inters := fun _ _ => [] }

theorem trunk_monotone_witness :
    suffixOf (rootTrunk c3St) (rootTrunk (adjustTrunk 30 c3St)) ∧
    polyLen c7mu (rootTrunk c3St) ≤ polyLen c7mu (rootTrunk (adjustTrunk 30 c3St)) :=
  (trunk_monotone c7O 30 c7mu (fun p q => by unfold c7mu; positivity)).1 c3St

/-- C10: `grow` on the empty string never returns normally and adds no
glyph: `string[0]` is `undefined`, `_createGlyph` throws at once (a
`TypeError` from `charCodeAt`), and the glyph list is still empty. -/
theorem grow_empty (o : Oracle) (bbd : Int) :
    grow o bbd [] St.init = (St.init, some .typeErr) ∧ St.init.glyphs = [] :=
  ⟨rfl, rfl⟩

/-- C5: for a non-empty word, `grow` throws a glyph-not-found error
exactly when a character that growth requests has no definition: if
every character of the word is defined no error occurs, every
glyph-not-found error names a missing character of the word, and no
other kind of error can escape, so the caller always sees the failure
(the word is never silently truncated). -/
theorem grow_error_iff (o : Oracle) (bbd : Int) (s : List Nat) (hne : s ≠ []) :
    ((∀ c ∈ s, o.hasDef c = true) → (grow o bbd s St.init).2 = none) ∧
    (∀ c, (grow o bbd s St.init).2 = some (.glyphNotFound c) →
      o.hasDef c = false ∧ c ∈ s) ∧
    ((grow o bbd s St.init).2 = none ∨
      ∃ c, (grow o bbd s St.init).2 = some (.glyphNotFound c)) := by
  obtain ⟨c0, rest, rfl⟩ : ∃ c0 rest, s = c0 :: rest := by
    cases s with
    | nil => exact absurd rfl hne
    | cons a l => exact ⟨a, l, rfl⟩
  cases hd : o.hasDef c0 with
  | false =>
    have hrun : grow o bbd (c0 :: rest) St.init =
        (St.init, some (.glyphNotFound c0)) := by
      unfold grow
      rw [show (c0 :: rest).head? = some c0 from rfl,
        createGlyph_of_missing St.init.nextId hd]
    rw [hrun]
    refine ⟨?_, ?_, Or.inr ⟨c0, rfl⟩⟩
    · intro hall
      exact absurd (hall c0 (List.mem_cons_self c0 rest)) (by rw [hd]; simp)
    · intro c hc
      simp only [Option.some_inj, GrowErr.glyphNotFound.injEq] at hc
      rw [← hc]
      exact ⟨hd, List.mem_cons_self c0 rest⟩
  | true =>
    have hrun : grow o bbd (c0 :: rest) St.init =
        growRec o bbd (mkGlyph o St.init.nextId c0) rest
          (addGlyph { St.init with nextId := St.init.nextId + 1 }
            (mkGlyph o St.init.nextId c0)) := by
      unfold grow
      rw [show (c0 :: rest).head? = some c0 from rfl,
        createGlyph_of_hasDef St.init.nextId hd]
      rfl
    rw [hrun]
    refine ⟨?_, ?_, ?_⟩
    · intro hall
      exact growRec_noErr o bbd rest
        (fun c hc => hall c (List.mem_cons_of_mem c0 hc)) _ _
    · intro c hc
      obtain ⟨c', hc', he, hdf⟩ := growRec_err o bbd rest _ _ _ hc
      simp only [GrowErr.glyphNotFound.injEq] at he
      rw [he]
      exact ⟨hdf, List.mem_cons_of_mem c0 hc'⟩
    · cases he : (growRec o bbd (mkGlyph o St.init.nextId c0) rest
          (addGlyph { St.init with nextId := St.init.nextId + 1 }
            (mkGlyph o St.init.nextId c0))).2 with
      | none => exact Or.inl rfl
      | some e =>
        obtain ⟨c', _, he2, _⟩ := growRec_err o bbd rest _ _ _ he
        exact Or.inr ⟨c', by rw [he2]⟩

def c5O : Oracle :=
  { hasDef := fun c => decide (c = 99) || decide (c = 100)
    nBranches := fun _ => 1
    trunk0 := fun _ => [⟨0, 0⟩]
    bottom0 := fun _ => 0
    pos0 := fun _ => ⟨0, 0⟩
    alignTrunk := fun _ _ => [⟨1, 1⟩]
    alignBottom := fun _ _ => 0
    alignPos := fun _ _ => ⟨1, 1⟩
    inters := fun _ _ => [] }

theorem grow_error_iff_witness :
    ((∀ c ∈ [99, 100], c5O.hasDef c = true) → (grow c5O 30 [99, 100] St.init).2 = none) ∧
    (∀ c, (grow c5O 30 [99, 100] St.init).2 = some (.glyphNotFound c) →
      c5O.hasDef c = false ∧ c ∈ [99, 100]) ∧
    ((grow c5O 30 [99, 100] St.init).2 = none ∨
      ∃ c, (grow c5O 30 [99, 100] St.init).2 = some (.glyphNotFound c)) :=
  grow_error_iff c5O 30 [99, 100] (by decide)

/-- C2: a candidate is rejected exactly when some pair of one of its
branch outlines and a placed glyph's branch outline has, after
excluding intersections at the candidate's own trunk-origin point, more
than one intersection or a single intersection that is a true crossing;
consequently in the final WordTree every such pair of branch outlines
of two different glyphs (intersections at the later glyph's trunk
origin excluded) intersects at most once, and a single intersection is
never a crossing. -/
theorem crossing_test_spec (o : Oracle) :
    (∀ (glyphs : List Glyph) (g : Glyph),
      crossesGlyph o glyphs g = true ↔
        ∃ gi ∈ glyphs, ∃ bA ∈ g.branches, ∃ bB ∈ gi.branches,
          1 < (interList o (firstSegPoint g.trunk) bA bB).length ∨
          ∃ it, interList o (firstSegPoint g.trunk) bA bB = [it] ∧ it.isCrossing = true) ∧
    ∀ (bbd : Int) (s : List Nat),
      ((grow o bbd s St.init).1.glyphs).Pairwise fun earlier later =>
        ∀ bA ∈ later.branches, ∀ bB ∈ earlier.branches,
          (interList o (firstSegPoint later.trunk) bA bB).length ≤ 1 ∧
          ∀ it, interList o (firstSegPoint later.trunk) bA bB = [it] →
            it.isCrossing = false := by
  constructor
  · intro glyphs g
    rw [crossesGlyph_eq_true_iff]
    simp only [badPair_eq_true_iff]
  · intro bbd s
    refine ((grow_inv o bbd s).2).imp ?_
    intro a b hab bA hbA bB hbB
    exact (badPair_eq_false_iff o (firstSegPoint b.trunk) bA bB).mp (hab bA hbA bB hbB)

/-- C8 (amended): `lowestGlyph` is null exactly while no glyph has been
accepted during recursion (the root alone never sets it); once set it
is an element of the glyph list (a reference, not a copy), lies among
the non-root glyphs, and has the lowest vertical extent among the
non-root glyphs — the root glyph is never considered, so the root may
hang lower. -/
theorem lowestGlyph_spec (o : Oracle) (bbd : Int) (s : List Nat) :
    ((grow o bbd s St.init).1.lowestGlyph = none →
      (grow o bbd s St.init).1.glyphs.tail = []) ∧
    ∀ low, (grow o bbd s St.init).1.lowestGlyph = some low →
      low ∈ (grow o bbd s St.init).1.glyphs ∧
      low ∈ (grow o bbd s St.init).1.glyphs.tail ∧
      ∀ g ∈ (grow o bbd s St.init).1.glyphs.tail, g.bottomY ≤ low.bottomY := by
  obtain ⟨h1, h2⟩ := (grow_inv o bbd s).1
  refine ⟨h1, fun low hlow => ?_⟩
  obtain ⟨hm, hb⟩ := h2 low hlow
  exact ⟨List.mem_of_mem_tail hm, hm, hb⟩

def c8O : Oracle :=
  { hasDef := fun c => decide (c = 97) || decide (c = 98)
    nBranches := fun _ => 1
    trunk0 := fun _ => [⟨0, 0⟩]
    bottom0 := fun _ => 100
    pos0 := fun _ => ⟨0, 0⟩
    alignTrunk := fun _ _ => [⟨0, -30⟩]
    alignBottom := fun _ _ => 0
    alignPos := fun _ _ => ⟨0, -30⟩
    inters := fun _ _ => [] }

/-- C8 counterexample: after growing "ab" with a font whose root glyph
hangs down to y = 100 while the accepted child ends at y = 0,
`lowestGlyph` references the child (bottom 0) even though the root
glyph in the glyph list has the lower vertical extent (bottom 100). -/
theorem lowestGlyph_cx :
    (grow c8O 30 [97, 98] St.init).1.lowestGlyph.map Glyph.bottomY = some 0 ∧
    ∃ g ∈ (grow c8O 30 [97, 98] St.init).1.glyphs, 0 < g.bottomY := by decide

/-- C6: a rejection by the crossing test is pure control flow: the loop
equation shows the run continues with the remaining branches of the
previous glyph from the post-`_adjustTrunk` state with only the reject
count bumped (no error in the pair, no recursion into the candidate,
whatever the continuation `growRec … rest` would have done); the
`_adjustTrunk` call that precedes the test leaves `lowestGlyph`, the
glyph count and every glyph's identity/char/branches/bottom untouched,
and the discarded candidate's fresh id never appears in the list. -/
theorem rejection_is_local (o : Oracle) (bbd : Int) (c : Nat) (st : St)
    (prev : Glyph) (b : Nat × Nat) (bs : List (Nat × Nat)) (rest : List Nat)
    (hdef : o.hasDef c = true)
    (hbr : prev.branches = b :: bs)
    (hx : crossesGlyph o (stepSt2 o bbd st).glyphs
        (alignAtBranch o (mkGlyph o st.nextId c) b) = true) :
    growRec o bbd prev (c :: rest) st =
      bs.foldl (branchStep o bbd c (fun g st' => growRec o bbd g rest st'))
        ({ stepSt2 o bbd st with rejects := (stepSt2 o bbd st).rejects + 1 }, none) ∧
    (stepSt2 o bbd st).lowestGlyph = st.lowestGlyph ∧
    (stepSt2 o bbd st).glyphs.map glyphKey = st.glyphs.map glyphKey ∧
    (stepSt2 o bbd st).glyphs.length = st.glyphs.length ∧
    ((∀ gl ∈ st.glyphs, gl.id < st.nextId) →
      ∀ gl ∈ (stepSt2 o bbd st).glyphs, gl.id ≠ (mkGlyph o st.nextId c).id) := by
  refine ⟨?_, ?_, ?_, ?_, ?_⟩
  · show prev.branches.foldl _ (st, none) = _
    rw [hbr, List.foldl_cons, branchStep_reject _ hdef hx]
  · exact adjustTrunk_lowest bbd _
  · exact adjustTrunk_keys bbd _
  · exact adjustTrunk_length bbd _
  · intro hfresh gl hgl
    have hmem : glyphKey gl ∈ (stepSt2 o bbd st).glyphs.map glyphKey :=
      List.mem_map_of_mem _ hgl
    rw [show (stepSt2 o bbd st).glyphs.map glyphKey = st.glyphs.map glyphKey from
      adjustTrunk_keys bbd _] at hmem
    obtain ⟨gl0, hgl0, hk⟩ := List.mem_map.mp hmem
    have hid : gl0.id = gl.id := congrArg (fun k => k.1) hk
    have hlt := hfresh gl0 hgl0
    show gl.id ≠ st.nextId
    omega

def c6O : Oracle :=
  { hasDef := fun c => decide (c = 98)
    nBranches := fun _ => 1
    trunk0 := fun _ => [⟨0, 0⟩]
    bottom0 := fun _ => 0
    pos0 := fun _ => ⟨0, 0⟩
    alignTrunk := fun _ _ => [⟨2, 2⟩]
    alignBottom := fun _ _ => 0
    alignPos := fun _ _ => ⟨2, 2⟩
    inters := fun _ _ => [⟨⟨5, 5⟩, true⟩] }

def c6Root : Glyph := ⟨0, 97, [(0, 0)], [⟨0, 0⟩], 0, ⟨0, 0⟩⟩

def c6St : St := ⟨[c6Root], none, 1, 0⟩

theorem rejection_is_local_witness :
    growRec c6O 30 c6Root (98 :: []) c6St =
      List.foldl (branchStep c6O 30 98 (fun g st' => growRec c6O 30 g [] st'))
        ({ stepSt2 c6O 30 c6St with rejects := (stepSt2 c6O 30 c6St).rejects + 1 }, none)
        [] ∧
    (stepSt2 c6O 30 c6St).lowestGlyph = c6St.lowestGlyph ∧
    (stepSt2 c6O 30 c6St).glyphs.map glyphKey = c6St.glyphs.map glyphKey ∧
    (stepSt2 c6O 30 c6St).glyphs.length = c6St.glyphs.length ∧
    ((∀ gl ∈ c6St.glyphs, gl.id < c6St.nextId) →
      ∀ gl ∈ (stepSt2 c6O 30 c6St).glyphs, gl.id ≠ (mkGlyph c6O c6St.nextId 98).id) :=
  rejection_is_local c6O 30 98 c6St c6Root (0, 0) [] []
    (by decide) (by decide) (by decide)

/-- C1 (amended): for any font and any word, whenever the glyph list
produced by `grow` is non-empty its first glyph corresponds to `W[0]`;
the glyph count law holds for chain fonts: when every character of the
word has a definition with exactly one branch, `grow` yields exactly
`len(W)` glyphs when no candidate is rejected and strictly fewer when a
rejection occurs.  (With higher branch counts each accepted candidate
spawns one glyph per branch of its parent, so the count exceeds
`len(W)` — see the counterexample.) -/
theorem grow_count_spec (o : Oracle) (bbd : Int) (s : List Nat) :
    ((grow o bbd s St.init).1.glyphs = [] ∨
      (grow o bbd s St.init).1.glyphs.head?.map Glyph.char = some (s.headD 0)) ∧
    (s ≠ [] → (∀ c ∈ s, o.hasDef c = true ∧ o.nBranches c = 1) →
      (grow o bbd s St.init).2 = none ∧
      ((grow o bbd s St.init).1.rejects = 0 →
        (grow o bbd s St.init).1.glyphs.length = s.length) ∧
      (0 < (grow o bbd s St.init).1.rejects →
        (grow o bbd s St.init).1.glyphs.length < s.length)) := by
  constructor
  · cases s with
    | nil => exact Or.inl rfl
    | cons c0 rest =>
      cases hd : o.hasDef c0 with
      | false =>
        left
        unfold grow
        rw [show (c0 :: rest).head? = some c0 from rfl,
          createGlyph_of_missing St.init.nextId hd]
        rfl
      | true =>
        right
        have hrun : grow o bbd (c0 :: rest) St.init =
            growRec o bbd (mkGlyph o St.init.nextId c0) rest
              (addGlyph { St.init with nextId := St.init.nextId + 1 }
                (mkGlyph o St.init.nextId c0)) := by
          unfold grow
          rw [show (c0 :: rest).head? = some c0 from rfl,
            createGlyph_of_hasDef St.init.nextId hd]
          rfl
        rw [hrun]
        have hev := growRec_evolves o bbd rest (mkGlyph o St.init.nextId c0)
          (addGlyph { St.init with nextId := St.init.nextId + 1 }
            (mkGlyph o St.init.nextId c0))
        obtain ⟨_, hhead⟩ := hev.2.2.1 (by
          show St.init.glyphs ++ [mkGlyph o St.init.nextId c0] ≠ []
          simp)
        rw [hhead]
        rfl
  · intro hne hdef
    obtain ⟨c0, rest, rfl⟩ : ∃ c0 rest, s = c0 :: rest := by
      cases s with
      | nil => exact absurd rfl hne
      | cons a l => exact ⟨a, l, rfl⟩
    have hd0 := (hdef c0 (List.mem_cons_self c0 rest)).1
    have hn0 := (hdef c0 (List.mem_cons_self c0 rest)).2
    have hrun : grow o bbd (c0 :: rest) St.init =
        growRec o bbd (mkGlyph o St.init.nextId c0) rest
          (addGlyph { St.init with nextId := St.init.nextId + 1 }
            (mkGlyph o St.init.nextId c0)) := by
      unfold grow
      rw [show (c0 :: rest).head? = some c0 from rfl,
        createGlyph_of_hasDef St.init.nextId hd0]
      rfl
    have hbl : (mkGlyph o St.init.nextId c0).branches.length = 1 := by
      rw [mkGlyph_branches_length, hn0]
    obtain ⟨h1, _, h3, h4⟩ := growRec_single o bbd rest
      (fun c hc => hdef c (List.mem_cons_of_mem c0 hc))
      (mkGlyph o St.init.nextId c0) hbl
      (addGlyph { St.init with nextId := St.init.nextId + 1 }
        (mkGlyph o St.init.nextId c0))
    rw [hrun]
    refine ⟨h1, ?_, ?_⟩
    · intro hz
      have h5 := h3 (by exact hz)
      exact h5.trans (by show 1 + rest.length = rest.length + 1; omega)
    · intro hpos
      have h5 := h4 (by exact hpos)
      exact lt_of_lt_of_le h5 (by show 1 + rest.length ≤ rest.length + 1; omega)

def c1Font : Oracle :=
  { hasDef := fun c => decide (c = 105) || decide (c = 116)
    nBranches := fun c => if c = 105 then 2 else 1
    trunk0 := fun _ => [⟨0, 0⟩, ⟨0, -10⟩]
    bottom0 := fun _ => 0
    pos0 := fun _ => ⟨0, 0⟩
    alignTrunk := fun _ _ => [⟨0, -10⟩]
    alignBottom := fun _ _ => 0
    alignPos := fun _ _ => ⟨0, -10⟩
    inters := fun _ _ => [] }

/-- C1 counterexample: growing the word "it" (`[105, 116]` as char
codes) with a font where 'i' has two branches and no candidate is ever
rejected produces 3 glyphs, not `len("it") = 2` — while the first glyph
still corresponds to 'i'. -/
theorem grow_count_cx :
    (grow c1Font 30 [105, 116] St.init).2 = none ∧
    (grow c1Font 30 [105, 116] St.init).1.rejects = 0 ∧
    (grow c1Font 30 [105, 116] St.init).1.glyphs.length = 3 ∧
    [105, 116].length = 2 ∧
    (grow c1Font 30 [105, 116] St.init).1.glyphs.head?.map Glyph.char = some 105 := by
  decide

def c1Chain : Oracle :=
  { hasDef := fun c => decide (c = 97) || decide (c = 98)
    nBranches := fun _ => 1
    trunk0 := fun _ => [⟨0, 0⟩]
    bottom0 := fun _ => 0
    pos0 := fun _ => ⟨0, 0⟩
    alignTrunk := fun _ _ => [⟨0, -10⟩]
    alignBottom := fun _ _ => 0
    alignPos := fun _ _ => ⟨0, -10⟩
    inters := fun _ _ => [] }

theorem grow_count_spec_witness :
    ((grow c1Chain 30 [97, 98] St.init).1.glyphs = [] ∨
      (grow c1Chain 30 [97, 98] St.init).1.glyphs.head?.map Glyph.char =
        some ([97, 98].headD 0)) ∧
    (grow c1Chain 30 [97, 98] St.init).2 = none ∧
    ((grow c1Chain 30 [97, 98] St.init).1.rejects = 0 →
      (grow c1Chain 30 [97, 98] St.init).1.glyphs.length = [97, 98].length) ∧
    (0 < (grow c1Chain 30 [97, 98] St.init).1.rejects →
      (grow c1Chain 30 [97, 98] St.init).1.glyphs.length < [97, 98].length) :=
  ⟨(grow_count_spec c1Chain 30 [97, 98]).1,
    (grow_count_spec c1Chain 30 [97, 98]).2 (by decide) (by decide)⟩

/-! ## Distribution of child trees -/

theorem distributeMany_perm (thr : Int) (ts : List TreeRef)
    (hl : ∃ a ∈ ts, a.posX < thr) (hr : ∃ a ∈ ts, ¬a.posX < thr) :
    ∃ d, distributeMany thr ts = some d ∧
      (d.left ++ d.center :: d.right).Perm ts := by
  obtain ⟨x, hx, hpx⟩ := hl
  obtain ⟨y, hy, hpy⟩ := hr
  have hlne : (ts.filter fun t => decide (t.posX < thr)) ≠ [] :=
    List.ne_nil_of_mem (List.mem_filter.mpr ⟨hx, by simp [hpx]⟩)
  have hrne : (ts.filter fun t => !decide (t.posX < thr)) ≠ [] :=
    List.ne_nil_of_mem (List.mem_filter.mpr ⟨hy, by simp [hpy]⟩)
  have hperm : ((ts.filter fun t => decide (t.posX < thr)) ++
      (ts.filter fun t => !decide (t.posX < thr))).Perm ts :=
    List.filter_append_perm _ ts
  have hlast : (ts.filter fun t => decide (t.posX < thr)).getLast? =
      some ((ts.filter fun t => decide (t.posX < thr)).getLast hlne) :=
    List.getLast?_eq_getLast _ hlne
  have hsplit : (ts.filter fun t => decide (t.posX < thr)).dropLast ++
      [(ts.filter fun t => decide (t.posX < thr)).getLast hlne] =
      ts.filter fun t => decide (t.posX < thr) :=
    List.dropLast_append_getLast hlne
  obtain ⟨r0, rt, hrc⟩ : ∃ r0 rt,
      (ts.filter fun t => !decide (t.posX < thr)) = r0 :: rt := by
    cases hc : ts.filter fun t => !decide (t.posX < thr) with
    | nil => exact absurd hc hrne
    | cons a l => exact ⟨a, l, rfl⟩
  unfold distributeMany
  by_cases h1 : (ts.filter fun t => !decide (t.posX < thr)).length = 1
  · rw [if_pos h1, hlast]
    refine ⟨_, rfl, ?_⟩
    show ((ts.filter fun t => decide (t.posX < thr)).dropLast ++
      (ts.filter fun t => decide (t.posX < thr)).getLast hlne ::
        (ts.filter fun t => !decide (t.posX < thr))).Perm ts
    rw [← List.singleton_append, ← List.append_assoc, hsplit]
    exact hperm
  · rw [if_neg h1, hlast, hrc, List.head?_cons]
    rw [hrc] at hperm
    by_cases hw : ((ts.filter fun t => decide (t.posX < thr)).getLast hlne).width < r0.width
    · refine ⟨⟨(ts.filter fun t => decide (t.posX < thr)).dropLast,
        (ts.filter fun t => decide (t.posX < thr)).getLast hlne, r0 :: rt⟩, ?_, ?_⟩
      · show (if ((ts.filter fun t => decide (t.posX < thr)).getLast hlne).width < r0.width
            then some (⟨(ts.filter fun t => decide (t.posX < thr)).dropLast,
              (ts.filter fun t => decide (t.posX < thr)).getLast hlne, r0 :: rt⟩ : Distributed)
            else some ⟨ts.filter fun t => decide (t.posX < thr), r0, (r0 :: rt).tail⟩) =
          some ⟨(ts.filter fun t => decide (t.posX < thr)).dropLast,
            (ts.filter fun t => decide (t.posX < thr)).getLast hlne, r0 :: rt⟩
        rw [if_pos hw]
      · show ((ts.filter fun t => decide (t.posX < thr)).dropLast ++
          (ts.filter fun t => decide (t.posX < thr)).getLast hlne :: (r0 :: rt)).Perm ts
        rw [← List.singleton_append, ← List.append_assoc, hsplit]
        exact hperm
    · refine ⟨⟨ts.filter fun t => decide (t.posX < thr), r0, rt⟩, ?_, ?_⟩
      · show (if ((ts.filter fun t => decide (t.posX < thr)).getLast hlne).width < r0.width
            then some (⟨(ts.filter fun t => decide (t.posX < thr)).dropLast,
              (ts.filter fun t => decide (t.posX < thr)).getLast hlne, r0 :: rt⟩ : Distributed)
            else some ⟨ts.filter fun t => decide (t.posX < thr), r0, (r0 :: rt).tail⟩) =
          some ⟨ts.filter fun t => decide (t.posX < thr), r0, rt⟩
        rw [if_neg hw]
        rfl
      · show ((ts.filter fun t => decide (t.posX < thr)) ++ r0 :: rt).Perm ts
        exact hperm

/-- C4 (amended): `_distributeTrees` assigns 1, 2 and 3 children
exactly as enumerated (1 → center; 2 → first left, second center;
3 → first left, second center, third right), and with 4 or more
children it assigns every child to exactly one of {left, center, right}
with a non-empty center provided the position partition puts at least
one child on each side of the threshold; when all children fall on one
side, the selection step instead crashes on a member access of
`undefined` (see the counterexample). -/
theorem distributeTrees_spec :
    (∀ (thr : Int) (t0 : TreeRef), distributeTrees thr [t0] = some ⟨[], t0, []⟩) ∧
    (∀ (thr : Int) (t0 t1 : TreeRef), distributeTrees thr [t0, t1] = some ⟨[t0], t1, []⟩) ∧
    (∀ (thr : Int) (t0 t1 t2 : TreeRef),
      distributeTrees thr [t0, t1, t2] = some ⟨[t0], t1, [t2]⟩) ∧
    ∀ (thr : Int) (ts : List TreeRef), 4 ≤ ts.length →
      (∃ a ∈ ts, a.posX < thr) → (∃ a ∈ ts, ¬a.posX < thr) →
      ∃ d, distributeTrees thr ts = some d ∧
        (d.left ++ d.center :: d.right).Perm ts := by
  refine ⟨fun thr t0 => rfl, fun thr t0 t1 => rfl, fun thr t0 t1 t2 => rfl, ?_⟩
  intro thr ts hlen hl hr
  obtain ⟨a, b, c, d, e, rfl⟩ : ∃ a b c d e, ts = a :: b :: c :: d :: e := by
    cases ts with
    | nil => simp at hlen
    | cons a l1 =>
      cases l1 with
      | nil => simp at hlen
      | cons b l2 =>
        cases l2 with
        | nil => simp at hlen
        | cons c l3 =>
          cases l3 with
          | nil => simp at hlen
          | cons d l4 => exact ⟨a, b, c, d, l4, rfl⟩
  rw [show distributeTrees thr (a :: b :: c :: d :: e) =
    distributeMany thr (a :: b :: c :: d :: e) from rfl]
  exact distributeMany_perm thr _ hl hr

/-- C4 counterexample: with four children all on or right of the
threshold, the left group is empty and `_distributeTrees` crashes
(reads `.item.bounds.width` of `undefined`) instead of assigning every
child to a group and selecting a center. -/
theorem distributeTrees_cx :
    distributeTrees 0 [⟨0, 1, 1⟩, ⟨1, 2, 1⟩, ⟨2, 3, 1⟩, ⟨3, 4, 1⟩] = none := by
  decide

theorem distributeTrees_spec_witness :
    distributeTrees 10 [⟨0, 5, 1⟩] = some ⟨[], ⟨0, 5, 1⟩, []⟩ ∧
    distributeTrees 10 [⟨0, 5, 1⟩, ⟨1, 6, 1⟩] = some ⟨[⟨0, 5, 1⟩], ⟨1, 6, 1⟩, []⟩ ∧
    distributeTrees 10 [⟨0, 5, 1⟩, ⟨1, 6, 1⟩, ⟨2, 7, 1⟩] =
      some ⟨[⟨0, 5, 1⟩], ⟨1, 6, 1⟩, [⟨2, 7, 1⟩]⟩ ∧
    ∃ dst, distributeTrees 10 [⟨0, 5, 2⟩, ⟨1, 20, 3⟩, ⟨2, 21, 4⟩, ⟨3, 22, 5⟩] = some dst ∧
      (dst.left ++ dst.center :: dst.right).Perm
        [⟨0, 5, 2⟩, ⟨1, 20, 3⟩, ⟨2, 21, 4⟩, ⟨3, 22, 5⟩] :=
  ⟨distributeTrees_spec.1 10 _, distributeTrees_spec.2.1 10 _ _,
    distributeTrees_spec.2.2.1 10 _ _ _,
    distributeTrees_spec.2.2.2 10 _ (by decide) (by decide) (by decide)⟩

/-- C9 (amended): per scanline, the left profile records the leftmost
column with nonzero alpha; the right profile records the offset of the
rightmost inked column from the right edge (`width - 1 - x`, the
right-to-left scan index), not that column itself; a row with no ink is
left unset (`none`), for either side; and `_getEdge` produces exactly
one such entry per scanline row. -/
theorem edge_extraction (w : Nat) (a : Nat → Nat) :
    (edgeRow w a true = none ↔ ∀ x, x < w → a x = 0) ∧
    (edgeRow w a false = none ↔ ∀ x, x < w → a x = 0) ∧
    (∀ v, edgeRow w a true = some v ↔ v < w ∧ a v ≠ 0 ∧ ∀ x, x < v → a x = 0) ∧
    (∀ v, edgeRow w a false = some v ↔
      ∃ x, x < w ∧ a x ≠ 0 ∧ (∀ y, x < y → y < w → a y = 0) ∧ v = w - 1 - x) ∧
    ∀ (h : Nat) (alpha : Nat → Nat → Nat) (side : Bool) (y : Nat), y < h →
      (getEdge w h alpha side)[y]? = some (edgeRow w (fun x => alpha x y) side) :=
  ⟨edgeRow_none_iff w a true, edgeRow_none_iff w a false,
    edgeRow_left_some_iff w a, edgeRow_right_some_iff w a,
    fun h alpha side y hy => getEdge_row w h alpha side y hy⟩

theorem edge_extraction_witness :
    (0 : Nat) < 2 ∧
    (getEdge 3 2 (fun x _ => if x = 2 then 1 else 0) false)[0]? =
      some (edgeRow 3 (fun x => (fun x _ => if x = 2 then 1 else 0) x 0) false) :=
  ⟨by decide,
    (edge_extraction 3 (fun _ => 0)).2.2.2.2 2 (fun x _ => if x = 2 then 1 else 0)
      false 0 (by decide)⟩

/-- C9 counterexample: in a 3-pixel-wide row whose only inked column is
the rightmost one (column 2), the right profile records 0 — the scan
offset `width - 1 - x` — not the rightmost lit column 2 the claim
names. -/
theorem edge_right_records_inset_cx :
    edgeRow 3 (fun x => if x = 2 then 1 else 0) false = some 0 ∧
    (if 2 = 2 then 1 else 0) ≠ 0 ∧
    (∀ x, x < 3 → x ≠ 2 → (if x = 2 then 1 else 0) = 0) ∧
    (0 : Nat) ≠ 2 := by
  refine ⟨by decide, by decide, ?_, by decide⟩
  intro x _ hx
  simp [hx]

theorem crossing_test_spec_witness :
    crossesGlyph c6O [c6Root] (alignAtBranch c6O (mkGlyph c6O 1 98) (0, 0)) = true ↔
      ∃ gi ∈ [c6Root], ∃ bA ∈ (alignAtBranch c6O (mkGlyph c6O 1 98) (0, 0)).branches,
        ∃ bB ∈ gi.branches,
          1 < (interList c6O
            (firstSegPoint (alignAtBranch c6O (mkGlyph c6O 1 98) (0, 0)).trunk) bA bB).length ∨
          ∃ it, interList c6O
              (firstSegPoint (alignAtBranch c6O (mkGlyph c6O 1 98) (0, 0)).trunk) bA bB = [it] ∧
            it.isCrossing = true :=
  (crossing_test_spec c6O).1 [c6Root] _

theorem lowestGlyph_spec_witness :
    (grow c8O 30 [97] St.init).1.glyphs.tail = [] :=
  (lowestGlyph_spec c8O 30 [97]).1 (by decide)
